import Mathlib

/-!
Verification of the Metropolis-Hastings MCMC sampler material in
`04-Implementing-MCMC.ipynb` (BayesianAstronomy).

The notebook is an exercise sheet: `make_data` and `log_posterior` have
concrete bodies, while `model`, `log_likelihood`, `log_prior` and the body of
`run_mcmc` are fill-in stubs (comments and `pass`).  Where a body is missing we
model the operation from the specification's words; where a body exists we
embed it directly.  Real-valued quantities are modelled over `ℚ` (the sampler
only ever compares and subtracts log-densities, so any ordered field is
faithful), and IEEE special values (`-inf`, `+inf`, `nan`) that the spec's
edge-case policy relies on are made explicit in the type `LogVal`.
-/

/-- An extended log-density value as produced by a log-posterior function:
a finite value, negative infinity (zero probability), positive infinity
(arising only as a log-acceptance-ratio), or `nan` (indeterminate `−∞ − (−∞)`). -/
inductive LogVal where
  | fin (q : ℚ)
  | negInf
  | posInf
  | nan
deriving DecidableEq, Repr

/-- IEEE-style addition of extended log values: `nan` is absorbing, opposite
infinities give `nan`, an infinity plus a finite value keeps the infinity. -/
def LogVal.add : LogVal → LogVal → LogVal
  | .fin a, .fin b => .fin (a + b)
  | .nan, _ => .nan
  | _, .nan => .nan
  | .negInf, .posInf => .nan
  | .posInf, .negInf => .nan
  | .negInf, _ => .negInf
  | _, .negInf => .negInf
  | .posInf, _ => .posInf
  | _, .posInf => .posInf

/-- IEEE-style subtraction `a − b` of extended log values, used for the
log-acceptance-ratio Δ = L' − L_i.  `(−∞) − (−∞)` is `nan`;
a finite `L'` minus `−∞` is `+∞`. -/
def LogVal.sub : LogVal → LogVal → LogVal
  | .fin a, .fin b => .fin (a - b)
  | .nan, _ => .nan
  | _, .nan => .nan
  | .negInf, .negInf => .nan
  | .posInf, .posInf => .nan
  | .negInf, _ => .negInf
  | _, .posInf => .negInf
  | .posInf, _ => .posInf
  | _, .negInf => .posInf

/-- IEEE-style test `0 ≤ a`: false on `nan` and `−∞`, true on `+∞`. -/
def LogVal.geZero : LogVal → Bool
  | .fin a => decide (0 ≤ a)
  | .negInf => false
  | .posInf => true
  | .nan => false

/-- IEEE-style strict order `a < b` on extended log values: any comparison
with `nan` is false. -/
def LogVal.lt : LogVal → LogVal → Bool
  | .nan, _ => false
  | _, .nan => false
  | .fin a, .fin b => decide (a < b)
  | .negInf, .negInf => false
  | .negInf, _ => true
  | _, .negInf => false
  | .posInf, _ => false
  | _, .posInf => true

/-- Names bound at module level by executing the code cells of the notebook
in order: the imports cell binds library aliases (omitted), cell 5 binds
`make_data`, `theta_true`, `x`, `y`, `dy`, and the later cells bind the
functions shown.  No cell ever binds `ln_prior` or `ln_likelihood`. -/
def notebookGlobals : List String :=
  ["np", "plt", "stats", "sns",
   "make_data", "theta_true", "x", "y", "dy",
   "model", "log_likelihood", "log_prior", "log_posterior", "run_mcmc"]

/-- A Python runtime error relevant to the embedded cells. -/
inductive PyError where
  | nameError (missing : String)
deriving DecidableEq, Repr

/-- Embedding of cell 16 of the notebook:
`def log_posterior(theta, x, y, dy): return ln_prior(theta) + ln_likelihood(theta, x, y, dy)`.
Python resolves each called name in the enclosing globals at call time, left
to right, raising `NameError` on the first unbound name.  `env` is the global
namespace; `priorVal` and `likVal` stand for the values the two calls would
return if the names were bound (their bodies are exercise stubs, so the values
are left abstract). -/
def log_posterior (env : List String) (priorVal likVal : LogVal) :
    Except PyError LogVal :=
  if "ln_prior" ∈ env then
    if "ln_likelihood" ∈ env then
      .ok (priorVal.add likVal)
    else
      .error (.nameError "ln_likelihood")
  else
    .error (.nameError "ln_prior")

/-- Embedding of `make_data` (cell 5):
```
def make_data(intercept, slope, N=20, dy=2, rseed=42):
    rand = np.random.RandomState(rseed)
    x = 100 * rand.rand(20)
    y = intercept + slope * x
    y += dy * rand.randn(20)
    return x, y, dy * np.ones_like(x)
```
The seeded generator `np.random.RandomState(rseed)` is modelled abstractly by
two families of streams indexed by the seed: `rsUniform rseed k` is the k-th
uniform draw and `rsNormal rseed k` the k-th standard-normal draw of the
generator seeded with `rseed`.  Note the body draws `rand.rand(20)` and
`rand.randn(20)` with the literal 20, not `N`. -/
def make_data (rsUniform rsNormal : ℕ → ℕ → ℚ)
    (intercept slope : ℚ) (N : ℕ) (dy : ℚ) (rseed : ℕ) :
    List ℚ × List ℚ × List ℚ :=
  let xs := (List.range 20).map fun k => 100 * rsUniform rseed k
  let ys := xs.map fun xi => intercept + slope * xi
  let ys' := List.zipWith (fun yi ek => yi + dy * ek)
    ys ((List.range 20).map fun k => rsNormal rseed k)
  (xs, ys', xs.map fun _ => dy)

/-- Modelled from the spec: the RandomSource collaborator (§2, §9), an
explicitly owned, seeded random source passed into `run`.  `normal k` is the
k-th standard-normal draw consumed by the proposal; `lnUniform k` is the
natural logarithm of the k-th uniform draw r ∈ [0,1) consumed by the
acceptance test (the test only ever uses ln r, and ln is not exactly
representable over ℚ, so the source supplies the logarithm; r = 0 gives
`negInf`). -/
structure RandomSource where
  normal : ℕ → ℚ
  lnUniform : ℕ → LogVal

/-- Modelled from the spec: the ephemeral SamplerState (§3): the current
parameter vector and its log-posterior, plus the positions of the random
source's two streams (how many normal and uniform draws have been consumed). -/
structure SamplerState where
  theta : List ℚ
  logp : LogVal
  nIdx : ℕ
  uIdx : ℕ
deriving DecidableEq, Repr

/-- Elementwise θ + stepSize ⊙ ε over parameter vectors. -/
def proposalAdd : List ℚ → List ℚ → List ℚ → List ℚ
  | t :: ts, s :: ss, e :: es => (t + s * e) :: proposalAdd ts ss es
  | _, _, _ => []

/-- Modelled from the spec: the candidate of one iteration (§4.1 step 1),
θ' = θ_i + stepSize ⊙ ε with ε a fresh standard-normal vector, one draw per
dimension, taken from the source at the current stream position. -/
def candidate (rng : RandomSource) (stepSize : List ℚ) (s : SamplerState) :
    List ℚ :=
  proposalAdd s.theta stepSize
    ((List.range s.theta.length).map fun j => rng.normal (s.nIdx + j))

/-- Modelled from the spec: the decision rule of §4.1 step 4 as a function of
the log-acceptance-ratio Δ and of ln r: accept unconditionally if Δ ≥ 0,
otherwise accept iff ln r < Δ. -/
def acceptTest (d lnr : LogVal) : Bool :=
  d.geZero || lnr.lt d

/-- Modelled from the spec: one iteration of the sampler loop (§4.1 steps
1-5), the body of `run_mcmc`'s loop which is a fill-in stub in the notebook.
Draws `s.theta.length` normals for the candidate, computes
L' = logPosterior(θ', extraArgs) and Δ = L' − L_i; if Δ ≥ 0 the candidate is
accepted with no uniform draw consumed; otherwise one uniform is consumed and
the candidate is accepted iff ln r < Δ; on rejection the previous state and
its log-posterior are carried over unchanged. -/
def mcmcStep {α : Type} (logPosterior : List ℚ → α → LogVal)
    (stepSize : List ℚ) (extraArgs : α) (rng : RandomSource)
    (s : SamplerState) : SamplerState :=
  let cand := candidate rng stepSize s
  let nIdx' := s.nIdx + s.theta.length
  let lc := logPosterior cand extraArgs
  let d := lc.sub s.logp
  if d.geZero then
    ⟨cand, lc, nIdx', s.uIdx⟩
  else if (rng.lnUniform s.uIdx).lt d then
    ⟨cand, lc, nIdx', s.uIdx + 1⟩
  else
    ⟨s.theta, s.logp, nIdx', s.uIdx + 1⟩

/-- Modelled from the spec: the sampler loop (§4.1 step 6), run for `n`
iterations from state `s`, returning the list of states after each iteration
in order. -/
def mcmcIter {α : Type} (logPosterior : List ℚ → α → LogVal)
    (stepSize : List ℚ) (extraArgs : α) (rng : RandomSource) :
    ℕ → SamplerState → List SamplerState
  | 0, _ => []
  | n + 1, s =>
    let s' := mcmcStep logPosterior stepSize extraArgs rng s
    s' :: mcmcIter logPosterior stepSize extraArgs rng n s'

/-- Modelled from the spec: the error taxonomy of §7. -/
inductive MCMCError where
  | invalidDimension
  | nonPositiveSteps
deriving DecidableEq, Repr

/-- Modelled from the spec: `Sampler.run` (§4.1), whose body is a fill-in
stub in the notebook.  `expectedDim` is the dimensionality `logPosterior`
expects.  Precondition checks come first (§7: detected before any iteration
begins): `InvalidDimension` if the initial state's dimensionality is
inconsistent, `NonPositiveSteps` if `steps ≤ 0`.  Otherwise the chain and the
log-probability trace are returned, both of length `steps + 1`, with index 0
holding `initialState` and `logPosterior(initialState, extraArgs)`. -/
def run {α : Type} (logPosterior : List ℚ → α → LogVal) (expectedDim : ℕ)
    (steps : ℤ) (initialState : List ℚ) (stepSize : List ℚ) (extraArgs : α)
    (rng : RandomSource) :
    Except MCMCError (List (List ℚ) × List LogVal) :=
  if initialState.length ≠ expectedDim then
    .error .invalidDimension
  else if steps ≤ 0 then
    .error .nonPositiveSteps
  else
    let s0 : SamplerState :=
      ⟨initialState, logPosterior initialState extraArgs, 0, 0⟩
    let states := mcmcIter logPosterior stepSize extraArgs rng steps.toNat s0
    .ok (s0.theta :: states.map (·.theta), s0.logp :: states.map (·.logp))

/-! ### Basic lemmas about the sampler loop -/

theorem mcmcIter_length {α : Type} (lp : List ℚ → α → LogVal)
    (ss : List ℚ) (ea : α) (rng : RandomSource) :
    ∀ (n : ℕ) (s : SamplerState), (mcmcIter lp ss ea rng n s).length = n
  | 0, _ => rfl
  | n + 1, s => by
    simp only [mcmcIter, List.length_cons, mcmcIter_length lp ss ea rng n]

theorem run_ok {α : Type} (lp : List ℚ → α → LogVal) (dim : ℕ) (steps : ℤ)
    (θ0 ss : List ℚ) (ea : α) (rng : RandomSource)
    (hdim : θ0.length = dim) (hsteps : 0 < steps) :
    run lp dim steps θ0 ss ea rng =
      .ok (θ0 :: (mcmcIter lp ss ea rng steps.toNat ⟨θ0, lp θ0 ea, 0, 0⟩).map (·.theta),
           lp θ0 ea :: (mcmcIter lp ss ea rng steps.toNat ⟨θ0, lp θ0 ea, 0, 0⟩).map (·.logp)) := by
  simp [run, hdim, not_le.mpr hsteps]

/-- Claim C10: `make_data(intercept, slope, N, dy, rseed)` returns three
arrays each of length exactly 20, for every value of `N`: the sample count 20
is hardcoded in the body, so the `N` argument is ignored and has no effect on
the output. -/
theorem make_data_hardcoded_twenty (rsUniform rsNormal : ℕ → ℕ → ℚ)
    (intercept slope : ℚ) (N N' : ℕ) (dy : ℚ) (rseed : ℕ) :
    (make_data rsUniform rsNormal intercept slope N dy rseed).1.length = 20 ∧
    (make_data rsUniform rsNormal intercept slope N dy rseed).2.1.length = 20 ∧
    (make_data rsUniform rsNormal intercept slope N dy rseed).2.2.length = 20 ∧
    make_data rsUniform rsNormal intercept slope N dy rseed =
      make_data rsUniform rsNormal intercept slope N' dy rseed := by
  refine ⟨?_, ?_, ?_, rfl⟩ <;> simp [make_data]

/-- Claim C5: cell 16's `log_posterior` is intended to return
`log_prior(theta) + log_likelihood(theta, x, y, dy)`, but its body calls the
names `ln_prior` and `ln_likelihood`, which no cell of the notebook binds; in
the notebook's global namespace every call raises `NameError: name 'ln_prior'
is not defined` instead of returning the sum, whatever the prior and
likelihood stubs would have returned. -/
theorem log_posterior_nameError (priorVal likVal : LogVal) :
    log_posterior notebookGlobals priorVal likVal =
      .error (.nameError "ln_prior") := by
  simp [log_posterior, notebookGlobals]

/-- Claim C2: for valid inputs (positive `steps`, initial state of the
expected dimensionality) `run` returns a Chain and a LogProbabilityTrace both
of length exactly `steps + 1`. -/
theorem run_chain_lengths {α : Type} (lp : List ℚ → α → LogVal) (dim : ℕ)
    (steps : ℤ) (θ0 ss : List ℚ) (ea : α) (rng : RandomSource)
    (hdim : θ0.length = dim) (hsteps : 0 < steps) :
    ∃ chain probs,
      run lp dim steps θ0 ss ea rng = .ok (chain, probs) ∧
      chain.length = steps.toNat + 1 ∧ probs.length = steps.toNat + 1 := by
  refine ⟨_, _, run_ok lp dim steps θ0 ss ea rng hdim hsteps, ?_, ?_⟩ <;>
    simp [mcmcIter_length]

/-- Claim C2 witness: a concrete 3-step run over a constant posterior returns
a chain and a trace of length 4. -/
theorem run_chain_lengths_witness :
    ∃ chain probs,
      run (fun _ _ => LogVal.fin 0) 1 3 [0] [1] ()
          ⟨fun _ => 0, fun _ => .fin (-1)⟩ = .ok (chain, probs) ∧
      chain.length = (3 : ℤ).toNat + 1 ∧ probs.length = (3 : ℤ).toNat + 1 :=
  run_chain_lengths (fun _ _ => LogVal.fin 0) 1 3 [0] [1] ()
    ⟨fun _ => 0, fun _ => .fin (-1)⟩ rfl (by decide)

/-- Claim C3: for valid inputs, the Chain at index 0 is exactly
`initialState` and the LogProbabilityTrace at index 0 is exactly
`logPosterior(initialState, extraArgs)`. -/
theorem run_initial_entries {α : Type} (lp : List ℚ → α → LogVal) (dim : ℕ)
    (steps : ℤ) (θ0 ss : List ℚ) (ea : α) (rng : RandomSource)
    (hdim : θ0.length = dim) (hsteps : 0 < steps) :
    ∃ chain probs,
      run lp dim steps θ0 ss ea rng = .ok (chain, probs) ∧
      chain[0]? = some θ0 ∧ probs[0]? = some (lp θ0 ea) :=
  ⟨_, _, run_ok lp dim steps θ0 ss ea rng hdim hsteps, by simp, by simp⟩

/-- Claim C3 witness: a concrete 2-step run starts at the initial state
`[5]` with its log-posterior. -/
theorem run_initial_entries_witness :
    ∃ chain probs,
      run (fun θ _ => LogVal.fin (θ.getD 0 0)) 1 2 [5] [1] ()
          ⟨fun _ => 0, fun _ => .fin (-1)⟩ = .ok (chain, probs) ∧
      chain[0]? = some [5] ∧
      probs[0]? = some ((fun (θ : List ℚ) (_ : Unit) => LogVal.fin (θ.getD 0 0)) [5] ()) :=
  run_initial_entries (fun θ _ => LogVal.fin (θ.getD 0 0)) 1 2 [5] [1] ()
    ⟨fun _ => 0, fun _ => .fin (-1)⟩ rfl (by decide)

theorem mcmcStep_logp {α : Type} (lp : List ℚ → α → LogVal) (ss : List ℚ)
    (ea : α) (rng : RandomSource) (s : SamplerState)
    (h : s.logp = lp s.theta ea) :
    (mcmcStep lp ss ea rng s).logp = lp (mcmcStep lp ss ea rng s).theta ea := by
  simp only [mcmcStep]
  by_cases h1 : ((lp (candidate rng ss s) ea).sub s.logp).geZero = true
  · rw [if_pos h1]
  · rw [if_neg h1]
    by_cases h2 :
      (rng.lnUniform s.uIdx).lt ((lp (candidate rng ss s) ea).sub s.logp) = true
    · rw [if_pos h2]
    · rw [if_neg h2]
      exact h

theorem mcmcIter_logp {α : Type} (lp : List ℚ → α → LogVal) (ss : List ℚ)
    (ea : α) (rng : RandomSource) :
    ∀ (n : ℕ) (s : SamplerState), s.logp = lp s.theta ea →
      ∀ t ∈ mcmcIter lp ss ea rng n s, t.logp = lp t.theta ea := by
  intro n
  induction n with
  | zero => intro s _ t ht; simp [mcmcIter] at ht
  | succ n ih =>
    intro s hs t ht
    simp only [mcmcIter, List.mem_cons] at ht
    rcases ht with rfl | ht
    · exact mcmcStep_logp lp ss ea rng s hs
    · exact ih (mcmcStep lp ss ea rng s) (mcmcStep_logp lp ss ea rng s hs) t ht

theorem chain_probs_pointwise {α : Type} (lp : List ℚ → α → LogVal)
    (ss : List ℚ) (ea : α) (rng : RandomSource) (n : ℕ) (s0 : SamplerState)
    (h0 : s0.logp = lp s0.theta ea) (i : ℕ) (θi : List ℚ) (li : LogVal)
    (hc : (s0.theta :: (mcmcIter lp ss ea rng n s0).map (·.theta))[i]? = some θi)
    (hp : (s0.logp :: (mcmcIter lp ss ea rng n s0).map (·.logp))[i]? = some li) :
    li = lp θi ea := by
  match i with
  | 0 =>
    simp only [List.getElem?_cons_zero, Option.some.injEq] at hc hp
    rw [← hc, ← hp, h0]
  | j + 1 =>
    simp only [List.getElem?_cons_succ, List.getElem?_map] at hc hp
    rcases Option.map_eq_some'.1 hc with ⟨t, ht, rfl⟩
    rcases Option.map_eq_some'.1 hp with ⟨t', ht', rfl⟩
    rw [ht] at ht'
    obtain rfl := Option.some.inj ht'
    exact mcmcIter_logp lp ss ea rng n s0 h0 t (List.getElem?_mem ht)

/-- Claim C4: for every index of the result of `run`, the trace entry is the
log-posterior of the chain entry at the same index; in particular on a
rejected iteration (`chain[i+1] = chain[i]`) the trace entry is carried over
as the exact previous value. -/
theorem run_trace_matches_logPosterior {α : Type} (lp : List ℚ → α → LogVal)
    (dim : ℕ) (steps : ℤ) (θ0 ss : List ℚ) (ea : α) (rng : RandomSource)
    (hdim : θ0.length = dim) (hsteps : 0 < steps) :
    ∃ chain probs,
      run lp dim steps θ0 ss ea rng = .ok (chain, probs) ∧
      (∀ (i : ℕ) (θi : List ℚ) (li : LogVal),
        chain[i]? = some θi → probs[i]? = some li → li = lp θi ea) ∧
      (∀ (i : ℕ) (θi : List ℚ),
        chain[i]? = some θi → chain[i + 1]? = some θi →
        probs[i + 1]? = probs[i]?) := by
  refine ⟨_, _, run_ok lp dim steps θ0 ss ea rng hdim hsteps, ?_, ?_⟩
  · intro i θi li hc hp
    exact chain_probs_pointwise lp ss ea rng steps.toNat
      ⟨θ0, lp θ0 ea, 0, 0⟩ rfl i θi li hc hp
  · intro i θi hc hc'
    have hi : i < (θ0 :: (mcmcIter lp ss ea rng steps.toNat
        ⟨θ0, lp θ0 ea, 0, 0⟩).map (·.theta)).length :=
      (List.getElem?_eq_some_iff.1 hc).1
    have hi' : i + 1 < (θ0 :: (mcmcIter lp ss ea rng steps.toNat
        ⟨θ0, lp θ0 ea, 0, 0⟩).map (·.theta)).length :=
      (List.getElem?_eq_some_iff.1 hc').1
    have hli : i < (lp θ0 ea :: (mcmcIter lp ss ea rng steps.toNat
        ⟨θ0, lp θ0 ea, 0, 0⟩).map (·.logp)).length := by
      simp only [List.length_cons, List.length_map] at hi ⊢
      exact hi
    have hli' : i + 1 < (lp θ0 ea :: (mcmcIter lp ss ea rng steps.toNat
        ⟨θ0, lp θ0 ea, 0, 0⟩).map (·.logp)).length := by
      simp only [List.length_cons, List.length_map] at hi' ⊢
      exact hi'
    have hp := List.getElem?_eq_getElem hli
    have hp' := List.getElem?_eq_getElem hli'
    rw [hp, hp',
      chain_probs_pointwise lp ss ea rng steps.toNat
        ⟨θ0, lp θ0 ea, 0, 0⟩ rfl i θi _ hc hp,
      chain_probs_pointwise lp ss ea rng steps.toNat
        ⟨θ0, lp θ0 ea, 0, 0⟩ rfl (i + 1) θi _ hc' hp']

/-- Claim C4 witness: a concrete 2-step run over a posterior that depends on
the state, with the trace matching the log-posterior of the chain pointwise. -/
theorem run_trace_matches_logPosterior_witness :
    ∃ chain probs,
      run (fun θ _ => LogVal.fin (θ.getD 0 0)) 1 2 [3] [1] ()
          ⟨fun _ => 1, fun _ => .fin (-1)⟩ = .ok (chain, probs) ∧
      (∀ (i : ℕ) (θi : List ℚ) (li : LogVal),
        chain[i]? = some θi → probs[i]? = some li →
        li = (fun (θ : List ℚ) (_ : Unit) => LogVal.fin (θ.getD 0 0)) θi ()) ∧
      (∀ (i : ℕ) (θi : List ℚ),
        chain[i]? = some θi → chain[i + 1]? = some θi →
        probs[i + 1]? = probs[i]?) :=
  run_trace_matches_logPosterior (fun θ _ => LogVal.fin (θ.getD 0 0)) 1 2 [3] [1] ()
    ⟨fun _ => 1, fun _ => .fin (-1)⟩ rfl (by decide)

theorem LogVal.lt_nan (x : LogVal) : x.lt .nan = false := by
  cases x <;> rfl

/-- Claim C6: `run` fails with `NonPositiveSteps` when `steps ≤ 0` and with
`InvalidDimension` when the initial state's dimensionality is inconsistent
with what `logPosterior` expects; both are detected before any iteration and
no partial chain or trace is returned (the result is an error value).  The
dimension check is performed first, matching the order of the spec's §4.1
error conditions, so when both preconditions are violated the reported error
is `InvalidDimension`. -/
theorem run_precondition_checks {α : Type} (lp : List ℚ → α → LogVal)
    (dim : ℕ) (steps : ℤ) (θ0 ss : List ℚ) (ea : α) (rng : RandomSource) :
    (θ0.length ≠ dim →
      run lp dim steps θ0 ss ea rng = .error .invalidDimension) ∧
    (θ0.length = dim → steps ≤ 0 →
      run lp dim steps θ0 ss ea rng = .error .nonPositiveSteps) ∧
    (steps ≤ 0 ∨ θ0.length ≠ dim →
      ∃ e, run lp dim steps θ0 ss ea rng = .error e) := by
  refine ⟨fun h => by simp [run, h], fun h1 h2 => by simp [run, h1, h2], ?_⟩
  intro h
  rcases h with h | h
  · by_cases hd : θ0.length = dim
    · exact ⟨.nonPositiveSteps, by simp [run, hd, h]⟩
    · exact ⟨.invalidDimension, by simp [run, hd]⟩
  · exact ⟨.invalidDimension, by simp [run, h]⟩

/-- Claim C6 witness: a run requested with -1 steps fails with
`NonPositiveSteps`; a run whose 1-dimensional initial state is handed to a
posterior expecting 2 dimensions fails with `InvalidDimension`. -/
theorem run_precondition_checks_witness :
    run (fun _ _ => LogVal.fin 0) 1 (-1) [0] [1] ()
        ⟨fun _ => 0, fun _ => .fin (-1)⟩ = .error .nonPositiveSteps ∧
    run (fun _ _ => LogVal.fin 0) 2 5 [0] [1] ()
        ⟨fun _ => 0, fun _ => .fin (-1)⟩ = .error .invalidDimension :=
  ⟨(run_precondition_checks (fun _ _ => LogVal.fin 0) 1 (-1) [0] [1] ()
      ⟨fun _ => 0, fun _ => .fin (-1)⟩).2.1 rfl (by decide),
   (run_precondition_checks (fun _ _ => LogVal.fin 0) 2 5 [0] [1] ()
      ⟨fun _ => 0, fun _ => .fin (-1)⟩).1 (by decide)⟩

/-- Claim C7: `run` never errors because `logPosterior` returns `−∞`: with
valid preconditions it returns a chain whatever values `logPosterior` takes;
within an iteration, if the current log-posterior is `−∞` and the candidate's
is finite, Δ = +∞ so the candidate is accepted unconditionally (no uniform
draw consumed), and if both are `−∞`, Δ = nan and the candidate is rejected
(state and log-posterior carried over). -/
theorem run_negInf_policy {α : Type} (lp : List ℚ → α → LogVal) (dim : ℕ)
    (steps : ℤ) (θ0 ss : List ℚ) (ea : α) (rng : RandomSource)
    (hdim : θ0.length = dim) (hsteps : 0 < steps) :
    (∃ out, run lp dim steps θ0 ss ea rng = .ok out) ∧
    (∀ s : SamplerState, s.logp = .negInf → ∀ q : ℚ,
      lp (candidate rng ss s) ea = .fin q →
      mcmcStep lp ss ea rng s =
        ⟨candidate rng ss s, .fin q, s.nIdx + s.theta.length, s.uIdx⟩) ∧
    (∀ s : SamplerState, s.logp = .negInf →
      lp (candidate rng ss s) ea = .negInf →
      (mcmcStep lp ss ea rng s).theta = s.theta ∧
      (mcmcStep lp ss ea rng s).logp = s.logp) := by
  refine ⟨⟨_, run_ok lp dim steps θ0 ss ea rng hdim hsteps⟩, ?_, ?_⟩
  · intro s hs q hq
    simp [mcmcStep, hs, hq, LogVal.sub, LogVal.geZero]
  · intro s hs hq
    simp [mcmcStep, hs, hq, LogVal.sub, LogVal.geZero, LogVal.lt_nan]

/-- Claim C7 witness: starting from a zero-probability state (`−∞`
log-posterior) with a finite-log-posterior candidate, the first iteration
accepts the candidate; a run over such a posterior returns normally. -/
theorem run_negInf_policy_witness :
    (∃ out, run (fun θ _ => if θ.getD 0 0 = 0 then LogVal.negInf else .fin 0)
        1 1 [0] [1] () ⟨fun _ => 1, fun _ => .fin (-1)⟩ = .ok out) ∧
    mcmcStep (fun θ _ => if θ.getD 0 0 = 0 then LogVal.negInf else .fin 0)
        [1] () ⟨fun _ => 1, fun _ => .fin (-1)⟩ ⟨[0], .negInf, 0, 0⟩ =
      ⟨candidate ⟨fun _ => 1, fun _ => .fin (-1)⟩ [1] ⟨[0], .negInf, 0, 0⟩,
       .fin 0, 0 + ([0] : List ℚ).length, 0⟩ :=
  ⟨(run_negInf_policy (fun θ _ => if θ.getD 0 0 = 0 then LogVal.negInf else .fin 0)
      1 1 [0] [1] () ⟨fun _ => 1, fun _ => .fin (-1)⟩ rfl (by decide)).1,
   (run_negInf_policy (fun θ _ => if θ.getD 0 0 = 0 then LogVal.negInf else .fin 0)
      1 1 [0] [1] () ⟨fun _ => 1, fun _ => .fin (-1)⟩ rfl (by decide)).2.1
      ⟨[0], .negInf, 0, 0⟩ rfl 0 (by
        simp [candidate, proposalAdd, List.range_succ])⟩

/-- Claim C1: in each iteration, with Δ the log-acceptance-ratio of the
candidate against the current state: if Δ ≥ 0 the candidate is accepted
unconditionally and no uniform draw is consumed (the uniform stream position
is unchanged); otherwise exactly one uniform r is consumed and the candidate
is accepted iff ln r < Δ, the previous state being kept on rejection.  The
rule is not the probability-domain comparison `a < r` of cell 3's step 4
(in log domain, `Δ < ln r`): that test disagrees with the one used. -/
theorem mcmc_acceptance_rule {α : Type} (lp : List ℚ → α → LogVal)
    (ss : List ℚ) (ea : α) (rng : RandomSource) :
    (∀ s : SamplerState,
      ((lp (candidate rng ss s) ea).sub s.logp).geZero = true →
      mcmcStep lp ss ea rng s =
        ⟨candidate rng ss s, lp (candidate rng ss s) ea,
         s.nIdx + s.theta.length, s.uIdx⟩) ∧
    (∀ s : SamplerState,
      ((lp (candidate rng ss s) ea).sub s.logp).geZero = false →
      mcmcStep lp ss ea rng s =
        if (rng.lnUniform s.uIdx).lt ((lp (candidate rng ss s) ea).sub s.logp) then
          ⟨candidate rng ss s, lp (candidate rng ss s) ea,
           s.nIdx + s.theta.length, s.uIdx + 1⟩
        else
          ⟨s.theta, s.logp, s.nIdx + s.theta.length, s.uIdx + 1⟩) ∧
    ¬ ∀ d lnr : LogVal, acceptTest d lnr = d.lt lnr := by
  refine ⟨?_, ?_, ?_⟩
  · intro s h1
    simp [mcmcStep, h1]
  · intro s h1
    simp only [mcmcStep]
    rw [if_neg (by simp [h1])]
  · intro hall
    exact absurd (hall (.fin 0) (.fin (-1))) (by decide)

/-- Claim C1 witness: over a constant posterior (Δ = 0) no uniform draw is
consumed by the first iteration, while over a posterior that penalises the
move (Δ < 0) one uniform draw is consumed. -/
theorem mcmc_acceptance_rule_witness :
    (mcmcStep (fun _ _ => LogVal.fin 0) [1] () ⟨fun _ => 1, fun _ => .fin (-1)⟩
        ⟨[0], .fin 0, 0, 0⟩).uIdx = 0 ∧
    (mcmcStep (fun θ _ => LogVal.fin (-(θ.getD 0 0))) [1] ()
        ⟨fun _ => 1, fun _ => .fin (-1)⟩ ⟨[0], .fin 0, 0, 0⟩).uIdx = 1 := by
  constructor
  · rw [(mcmc_acceptance_rule (fun _ _ => LogVal.fin 0) [1] ()
      ⟨fun _ => 1, fun _ => .fin (-1)⟩).1 ⟨[0], .fin 0, 0, 0⟩ (by
        simp [LogVal.sub, LogVal.geZero])]
  · rw [(mcmc_acceptance_rule (fun θ _ => LogVal.fin (-(θ.getD 0 0))) [1] ()
      ⟨fun _ => 1, fun _ => .fin (-1)⟩).2.1 ⟨[0], .fin 0, 0, 0⟩ (by
        simp [candidate, proposalAdd, List.range_succ, LogVal.sub, LogVal.geZero])]
    simp [candidate, proposalAdd, List.range_succ, LogVal.sub, LogVal.lt]

theorem proposalAdd_length : ∀ (ts ss es : List ℚ),
    ss.length = ts.length → es.length = ts.length →
    (proposalAdd ts ss es).length = ts.length := by
  intro ts
  induction ts with
  | nil => intro ss es _ _; cases ss <;> cases es <;> simp [proposalAdd]
  | cons t ts ih =>
    intro ss es hss hes
    cases ss with
    | nil => simp at hss
    | cons s ss =>
      cases es with
      | nil => simp at hes
      | cons e es =>
        simp only [proposalAdd, List.length_cons]
        rw [ih ss es (by simpa using hss) (by simpa using hes)]

theorem proposalAdd_getD : ∀ (ts ss es : List ℚ) (j : ℕ),
    j < ts.length → j < ss.length → j < es.length →
    (proposalAdd ts ss es).getD j 0 =
      ts.getD j 0 + ss.getD j 0 * es.getD j 0 := by
  intro ts
  induction ts with
  | nil => intro ss es j h _ _; simp at h
  | cons t ts ih =>
    intro ss es j h1 h2 h3
    cases ss with
    | nil => simp at h2
    | cons s ss =>
      cases es with
      | nil => simp at h3
      | cons e es =>
        cases j with
        | zero => simp [proposalAdd]
        | succ j =>
          simp only [proposalAdd, List.getD_cons_succ]
          exact ih ss es j (by simpa using h1) (by simpa using h2)
            (by simpa using h3)

theorem candidate_length (rng : RandomSource) (ss : List ℚ) (s : SamplerState)
    (hss : ss.length = s.theta.length) :
    (candidate rng ss s).length = s.theta.length := by
  unfold candidate
  exact proposalAdd_length _ _ _ hss (by simp)

theorem candidate_getD (rng : RandomSource) (ss : List ℚ) (s : SamplerState)
    (hss : ss.length = s.theta.length) (j : ℕ) (hj : j < s.theta.length) :
    (candidate rng ss s).getD j 0 =
      s.theta.getD j 0 + ss.getD j 0 * rng.normal (s.nIdx + j) := by
  unfold candidate
  rw [proposalAdd_getD _ _ _ j hj (hss ▸ hj) (by simpa using hj)]
  have hj' : j < ((List.range s.theta.length).map
      fun j => rng.normal (s.nIdx + j)).length := by simpa using hj
  rw [List.getD_eq_getElem _ _ hj']
  simp

/-- Claim C8: on every iteration the candidate state is generated as
θ' = θ_i + stepSize ⊙ ε with ε one fresh standard-normal draw per dimension
of the parameter vector, scaled elementwise by stepSize: elementwise,
θ'_j = θ_j + stepSize_j · ε_j where ε_j is the j-th normal draw of the
iteration, and the iteration's new vector is either this candidate or the
unchanged previous vector. -/
theorem mcmc_gaussian_proposal {α : Type} (lp : List ℚ → α → LogVal)
    (ss : List ℚ) (ea : α) (rng : RandomSource) (s : SamplerState)
    (hss : ss.length = s.theta.length) :
    ((mcmcStep lp ss ea rng s).theta = candidate rng ss s ∨
      (mcmcStep lp ss ea rng s).theta = s.theta) ∧
    (candidate rng ss s).length = s.theta.length ∧
    ∀ j, j < s.theta.length →
      (candidate rng ss s).getD j 0 =
        s.theta.getD j 0 + ss.getD j 0 * rng.normal (s.nIdx + j) := by
  refine ⟨?_, candidate_length rng ss s hss,
    fun j hj => candidate_getD rng ss s hss j hj⟩
  simp only [mcmcStep]
  by_cases h1 : ((lp (candidate rng ss s) ea).sub s.logp).geZero = true
  · rw [if_pos h1]
    exact .inl rfl
  · rw [if_neg h1]
    by_cases h2 :
      (rng.lnUniform s.uIdx).lt ((lp (candidate rng ss s) ea).sub s.logp) = true
    · rw [if_pos h2]
      exact .inl rfl
    · rw [if_neg h2]
      exact .inr rfl

/-- Claim C8 witness: a 2-dimensional state with stepSize [1, 2] and normal
draws k + 1; the candidate entries are θ_j + stepSize_j · ε_j. -/
theorem mcmc_gaussian_proposal_witness :
    ((mcmcStep (fun _ _ => LogVal.fin 0) [1, 2] ()
        ⟨fun k => (k : ℚ) + 1, fun _ => .fin (-1)⟩ ⟨[2, 3], .fin 0, 0, 0⟩).theta =
      candidate ⟨fun k => (k : ℚ) + 1, fun _ => .fin (-1)⟩ [1, 2]
        ⟨[2, 3], .fin 0, 0, 0⟩ ∨
     (mcmcStep (fun _ _ => LogVal.fin 0) [1, 2] ()
        ⟨fun k => (k : ℚ) + 1, fun _ => .fin (-1)⟩ ⟨[2, 3], .fin 0, 0, 0⟩).theta =
      [2, 3]) ∧
    (candidate ⟨fun k => (k : ℚ) + 1, fun _ => .fin (-1)⟩ [1, 2]
      ⟨[2, 3], .fin 0, 0, 0⟩).length = 2 ∧
    ∀ j, j < 2 →
      (candidate ⟨fun k => (k : ℚ) + 1, fun _ => .fin (-1)⟩ [1, 2]
          ⟨[2, 3], .fin 0, 0, 0⟩).getD j 0 =
        ([2, 3] : List ℚ).getD j 0 +
          ([1, 2] : List ℚ).getD j 0 * (((0 + j : ℕ) : ℚ) + 1) :=
  mcmc_gaussian_proposal (fun _ _ => LogVal.fin 0) [1, 2] ()
    ⟨fun k => (k : ℚ) + 1, fun _ => .fin (-1)⟩ ⟨[2, 3], .fin 0, 0, 0⟩ rfl

theorem mcmcStep_congr {α : Type} (lp : List ℚ → α → LogVal) (ss : List ℚ)
    (ea : α) (rng₁ rng₂ : RandomSource) (s : SamplerState)
    (hn : ∀ j, j < s.theta.length →
      rng₁.normal (s.nIdx + j) = rng₂.normal (s.nIdx + j))
    (hu : rng₁.lnUniform s.uIdx = rng₂.lnUniform s.uIdx) :
    mcmcStep lp ss ea rng₁ s = mcmcStep lp ss ea rng₂ s := by
  have hcand : candidate rng₁ ss s = candidate rng₂ ss s := by
    unfold candidate
    congr 1
    exact List.map_congr_left fun j hj => hn j (List.mem_range.1 hj)
  simp only [mcmcStep, hcand, hu]

theorem mcmcStep_nIdx {α : Type} (lp : List ℚ → α → LogVal) (ss : List ℚ)
    (ea : α) (rng : RandomSource) (s : SamplerState) :
    (mcmcStep lp ss ea rng s).nIdx = s.nIdx + s.theta.length := by
  simp only [mcmcStep]
  split
  · rfl
  · split <;> rfl

theorem mcmcStep_uIdx_ge {α : Type} (lp : List ℚ → α → LogVal) (ss : List ℚ)
    (ea : α) (rng : RandomSource) (s : SamplerState) :
    s.uIdx ≤ (mcmcStep lp ss ea rng s).uIdx := by
  simp only [mcmcStep]
  split
  · exact Nat.le_refl _
  · split <;> exact Nat.le_succ _

theorem mcmcStep_uIdx_le {α : Type} (lp : List ℚ → α → LogVal) (ss : List ℚ)
    (ea : α) (rng : RandomSource) (s : SamplerState) :
    (mcmcStep lp ss ea rng s).uIdx ≤ s.uIdx + 1 := by
  simp only [mcmcStep]
  split
  · exact Nat.le_succ _
  · split <;> exact Nat.le_refl _

theorem mcmcStep_theta_length {α : Type} (lp : List ℚ → α → LogVal)
    (ss : List ℚ) (ea : α) (rng : RandomSource) (s : SamplerState)
    (hss : ss.length = s.theta.length) :
    (mcmcStep lp ss ea rng s).theta.length = s.theta.length := by
  simp only [mcmcStep]
  split
  · exact candidate_length rng ss s hss
  · split
    · exact candidate_length rng ss s hss
    · rfl

theorem mcmcIter_congr {α : Type} (lp : List ℚ → α → LogVal) (ss : List ℚ)
    (ea : α) (rng₁ rng₂ : RandomSource) :
    ∀ (n : ℕ) (s : SamplerState), ss.length = s.theta.length →
    (∀ k, s.nIdx ≤ k → k < s.nIdx + n * s.theta.length →
      rng₁.normal k = rng₂.normal k) →
    (∀ k, s.uIdx ≤ k → k < s.uIdx + n →
      rng₁.lnUniform k = rng₂.lnUniform k) →
    mcmcIter lp ss ea rng₁ n s = mcmcIter lp ss ea rng₂ n s := by
  intro n
  induction n with
  | zero => intro s _ _ _; rfl
  | succ n ih =>
    intro s hss hn hu
    have hlen : s.theta.length ≤ (n + 1) * s.theta.length := by
      calc s.theta.length = 1 * s.theta.length := (one_mul _).symm
        _ ≤ (n + 1) * s.theta.length :=
          Nat.mul_le_mul_right _ (by omega)
    have hstep : mcmcStep lp ss ea rng₁ s = mcmcStep lp ss ea rng₂ s :=
      mcmcStep_congr lp ss ea rng₁ rng₂ s
        (fun j hj => hn (s.nIdx + j) (Nat.le_add_right _ _) (by linarith))
        (hu s.uIdx (Nat.le_refl _) (by omega))
    simp only [mcmcIter, hstep]
    congr 1
    have e1 := mcmcStep_nIdx lp ss ea rng₂ s
    have e2 := mcmcStep_theta_length lp ss ea rng₂ s hss
    have e3 := mcmcStep_uIdx_ge lp ss ea rng₂ s
    have e4 := mcmcStep_uIdx_le lp ss ea rng₂ s
    apply ih
    · rw [e2]
      exact hss
    · intro k hk1 hk2
      rw [e1] at hk1
      rw [e1, e2] at hk2
      refine hn k (le_trans (Nat.le_add_right _ _) hk1) ?_
      calc k < s.nIdx + s.theta.length + n * s.theta.length := hk2
        _ = s.nIdx + (n + 1) * s.theta.length := by ring
    · intro k hk1 hk2
      exact hu k (le_trans e3 hk1) (by omega)

/-- Claim C9: determinism over the random source: two calls of `run` with
identical arguments and random sources agreeing on every draw a run can
consume (`steps · dim` normal draws and at most `steps` uniform draws)
return identical Chain and LogProbabilityTrace — the result is a function of
the passed-in seeded source alone, with no hidden global randomness. -/
theorem run_deterministic {α : Type} (lp : List ℚ → α → LogVal) (dim : ℕ)
    (steps : ℤ) (θ0 ss : List ℚ) (ea : α) (rng₁ rng₂ : RandomSource)
    (hss : ss.length = θ0.length)
    (hn : ∀ k, k < steps.toNat * θ0.length → rng₁.normal k = rng₂.normal k)
    (hu : ∀ k, k < steps.toNat → rng₁.lnUniform k = rng₂.lnUniform k) :
    run lp dim steps θ0 ss ea rng₁ = run lp dim steps θ0 ss ea rng₂ := by
  by_cases hd : θ0.length = dim
  · by_cases h2 : steps ≤ 0
    · simp [run, hd, h2]
    · have hiter := mcmcIter_congr lp ss ea rng₁ rng₂ steps.toNat
        ⟨θ0, lp θ0 ea, 0, 0⟩ hss
        (fun k _ hk2 => hn k (by simpa using hk2))
        (fun k _ hk2 => hu k (by simpa using hk2))
      simp [run, hd, h2, hiter]
  · simp [run, hd]

/-- Claim C9 witness: two sources that agree on the two normal and two
uniform draws a 2-step, 1-dimensional run can consume (differing beyond
them) give identical results. -/
theorem run_deterministic_witness :
    run (fun _ _ => LogVal.fin 0) 1 2 [0] [1] ()
        ⟨fun _ => 0, fun _ => .fin (-1)⟩ =
    run (fun _ _ => LogVal.fin 0) 1 2 [0] [1] ()
        ⟨fun k => if k < 2 then 0 else 99,
         fun k => if k < 2 then .fin (-1) else .nan⟩ :=
  run_deterministic (fun _ _ => LogVal.fin 0) 1 2 [0] [1] ()
    ⟨fun _ => 0, fun _ => .fin (-1)⟩
    ⟨fun k => if k < 2 then 0 else 99,
     fun k => if k < 2 then .fin (-1) else .nan⟩
    rfl
    (fun k hk => by
      have hk2 : k < 2 := by simpa using hk
      simp [hk2])
    (fun k hk => by
      have hk2 : k < 2 := hk
      simp [hk2])
